import Mathlib

/-!
Verification of the MJPEG stream-proxy core (`stream_proxy.py`).

The embedding models:
* the frame extractor inside `StreamProxy.start_capture` (the accumulation
  buffer and the inner `while True` marker-search loop), with bytes as `Nat`,
  Python `bytes.find` for a two-byte needle as `find2`;
* the broadcaster `StreamProxy.broadcast_frame` (per-subscriber write with a
  local `try/except`, dead clients collected and discarded after the loop);
* the `WeakSet` registry operations `add`/`discard`;
* the outer reconnect loop of `start_capture` as a trace of connection
  attempts, frame emissions and backoff sleeps.
-/

/-- The two-byte pattern `[a, b]` occurs in `l` at index `n`. -/
def occursAt (a b : Nat) (l : List Nat) (n : Nat) : Prop :=
  l[n]? = some a ∧ l[n + 1]? = some b

instance (a b : Nat) (l : List Nat) (n : Nat) : Decidable (occursAt a b l n) := by
  unfold occursAt; infer_instance

/-- Python `bytes.find` specialised to a two-byte needle `[a, b]`: index of the
first occurrence, `none` when absent.  Models `buffer.find` in
`start_capture` (the needles there are the JPEG markers, two bytes each). -/
def find2 (a b : Nat) : List Nat → Option Nat
  | [] => none
  | [_] => none
  | x :: y :: t =>
    if x = a ∧ y = b then some 0 else (find2 a b (y :: t)).map (· + 1)

theorem occursAt_nil (a b : Nat) (n : Nat) : ¬ occursAt a b [] n := by
  simp [occursAt]

theorem occursAt_cons_succ (a b x : Nat) (l : List Nat) (n : Nat) :
    occursAt a b (x :: l) (n + 1) ↔ occursAt a b l n := by
  simp [occursAt]

theorem occursAt_cons_zero (a b x : Nat) (l : List Nat) :
    occursAt a b (x :: l) 0 ↔ x = a ∧ l[0]? = some b := by
  simp [occursAt, List.getElem?_cons_zero, eq_comm]

theorem find2_eq_none_iff (a b : Nat) (l : List Nat) :
    find2 a b l = none ↔ ∀ n, ¬ occursAt a b l n := by
  induction l with
  | nil => simp [find2, occursAt]
  | cons x t ih =>
    cases t with
    | nil =>
      simp only [find2, true_iff]
      intro n h
      rcases h with ⟨h1, h2⟩
      cases n with
      | zero => simp at h2
      | succ m => simp at h1
    | cons y t' =>
      simp only [find2]
      by_cases hxy : x = a ∧ y = b
      · simp only [if_pos hxy]
        constructor
        · intro h; exact absurd h (by simp)
        · intro h
          exact absurd ((occursAt_cons_zero a b x (y :: t')).mpr
            ⟨hxy.1, by simp [List.getElem?_cons_zero, hxy.2]⟩) (h 0)
      · simp only [if_neg hxy, Option.map_eq_none']
        rw [ih]
        constructor
        · intro h n hn
          cases n with
          | zero =>
            rcases (occursAt_cons_zero a b x (y :: t')).mp hn with ⟨h1, h2⟩
            simp [List.getElem?_cons_zero] at h2
            exact hxy ⟨h1, h2⟩
          | succ m => exact h m ((occursAt_cons_succ a b x (y :: t') m).mp hn)
        · intro h n
          intro hn
          exact h (n + 1) ((occursAt_cons_succ a b x (y :: t') n).mpr hn)

theorem find2_eq_some_iff (a b : Nat) (l : List Nat) (n : Nat) :
    find2 a b l = some n ↔ occursAt a b l n ∧ ∀ m < n, ¬ occursAt a b l m := by
  induction l generalizing n with
  | nil => simp [find2, occursAt]
  | cons x t ih =>
    cases t with
    | nil =>
      simp only [find2]
      constructor
      · intro h; simp at h
      · intro ⟨⟨h1, h2⟩, _⟩
        exfalso
        cases n with
        | zero => simp at h2
        | succ m => simp at h1
    | cons y t' =>
      simp only [find2]
      by_cases hxy : x = a ∧ y = b
      · simp only [if_pos hxy]
        constructor
        · intro h
          cases h
          refine ⟨(occursAt_cons_zero a b x (y :: t')).mpr
            ⟨hxy.1, by simp [List.getElem?_cons_zero, hxy.2]⟩, ?_⟩
          intro m hm; omega
        · intro ⟨h1, h2⟩
          cases n with
          | zero => rfl
          | succ m =>
            exact absurd ((occursAt_cons_zero a b x (y :: t')).mpr
              ⟨hxy.1, by simp [List.getElem?_cons_zero, hxy.2]⟩)
              (h2 0 (Nat.succ_pos m))
      · simp only [if_neg hxy]
        have hz : ¬ occursAt a b (x :: y :: t') 0 := by
          intro h
          rcases (occursAt_cons_zero a b x (y :: t')).mp h with ⟨h1, h2⟩
          simp [List.getElem?_cons_zero] at h2
          exact hxy ⟨h1, h2⟩
        constructor
        · intro h
          rcases Option.map_eq_some'.mp h with ⟨m, hm, hmn⟩
          rcases (ih m).mp hm with ⟨ho, hmin⟩
          subst hmn
          refine ⟨(occursAt_cons_succ a b x (y :: t') m).mpr ho, ?_⟩
          intro k hk
          cases k with
          | zero => exact hz
          | succ j =>
            rw [occursAt_cons_succ]
            exact hmin j (by omega)
        · intro ⟨h1, h2⟩
          cases n with
          | zero => exact absurd h1 hz
          | succ m =>
            rw [Option.map_eq_some']
            refine ⟨m, (ih m).mpr ⟨(occursAt_cons_succ a b x (y :: t') m).mp h1, ?_⟩, rfl⟩
            intro k hk
            intro ho
            exact h2 (k + 1) (by omega) ((occursAt_cons_succ a b x (y :: t') k).mpr ho)

theorem find2_eq_some_occursAt {a b : Nat} {l : List Nat} {n : Nat}
    (h : find2 a b l = some n) : occursAt a b l n :=
  ((find2_eq_some_iff a b l n).mp h).1

theorem occursAt_lt_length {a b : Nat} {l : List Nat} {n : Nat}
    (h : occursAt a b l n) : n + 2 ≤ l.length := by
  rcases h with ⟨_, h2⟩
  rcases List.getElem?_eq_some.mp h2 with ⟨hlt, _⟩
  omega

/-- Fuel-indexed body of the inner `while True` loop of
`StreamProxy.start_capture`:

    while True:
        start = buffer.find(b'\xff\xd8')
        if start == -1: break
        end = buffer.find(b'\xff\xd9', start)
        if end == -1: break
        frame = buffer[start:end+2]
        buffer = buffer[end+2:]
        ... broadcast frame ...

Returns the emitted frames in order and the final buffer.  `buffer.find(p, start)`
is `find2` on `buffer.drop start`, the returned index shifted by `start`;
the code below keeps the relative index `e0` (so the absolute end index is
`s + e0`).  Each iteration consumes at least two bytes, so fuel
`buffer.length` always suffices (`extract` below). -/
def extractF : Nat → List Nat → List (List Nat) × List Nat
  | 0, buf => ([], buf)
  | fuel + 1, buf =>
    match find2 255 216 buf with
    | none => ([], buf)
    | some s =>
      match find2 255 217 (buf.drop s) with
      | none => ([], buf)
      | some e0 =>
        let p := extractF fuel (buf.drop (s + e0 + 2))
        ((buf.drop s).take (e0 + 2) :: p.1, p.2)

/-- The inner marker-search loop of `StreamProxy.start_capture`, run to
completion on buffer `buf`. -/
def extract (buf : List Nat) : List (List Nat) × List Nat :=
  extractF buf.length buf

theorem extractF_succ_no_start {buf : List Nat} (fuel : Nat)
    (h : find2 255 216 buf = none) : extractF (fuel + 1) buf = ([], buf) := by
  simp [extractF, h]

theorem extractF_succ_no_end {buf : List Nat} {s : Nat} (fuel : Nat)
    (h1 : find2 255 216 buf = some s) (h2 : find2 255 217 (buf.drop s) = none) :
    extractF (fuel + 1) buf = ([], buf) := by
  simp [extractF, h1, h2]

theorem extractF_succ_emit {buf : List Nat} {s e0 : Nat} (fuel : Nat)
    (h1 : find2 255 216 buf = some s) (h2 : find2 255 217 (buf.drop s) = some e0) :
    extractF (fuel + 1) buf =
      ((buf.drop s).take (e0 + 2) :: (extractF fuel (buf.drop (s + e0 + 2))).1,
        (extractF fuel (buf.drop (s + e0 + 2))).2) := by
  simp [extractF, h1, h2]

theorem extractF_fuel : ∀ f1 f2 (buf : List Nat), buf.length ≤ f1 → buf.length ≤ f2 →
    extractF f1 buf = extractF f2 buf := by
  intro f1
  induction f1 with
  | zero =>
    intro f2 buf h1 _
    have : buf = [] := List.length_eq_zero.mp (Nat.le_zero.mp h1)
    subst this
    cases f2 with
    | zero => rfl
    | succ g => simp [extractF, find2]
  | succ f ih =>
    intro f2 buf h1 h2
    cases f2 with
    | zero =>
      have : buf = [] := List.length_eq_zero.mp (Nat.le_zero.mp h2)
      subst this
      simp [extractF, find2]
    | succ g =>
      cases hs : find2 255 216 buf with
      | none => rw [extractF_succ_no_start f hs, extractF_succ_no_start g hs]
      | some s =>
        cases he : find2 255 217 (buf.drop s) with
        | none => rw [extractF_succ_no_end f hs he, extractF_succ_no_end g hs he]
        | some e0 =>
          have hocc := find2_eq_some_occursAt he
          have hlen := occursAt_lt_length hocc
          rw [List.length_drop] at hlen
          have hrest : (buf.drop (s + e0 + 2)).length ≤ f ∧
              (buf.drop (s + e0 + 2)).length ≤ g := by
            rw [List.length_drop]
            omega
          rw [extractF_succ_emit f hs he, extractF_succ_emit g hs he,
            ih g (buf.drop (s + e0 + 2)) hrest.1 hrest.2]

theorem extract_eq_extractF {buf : List Nat} {fuel : Nat} (h : buf.length ≤ fuel) :
    extract buf = extractF fuel buf :=
  extractF_fuel buf.length fuel buf (Nat.le_refl _) h

theorem extract_no_start {buf : List Nat} (h : find2 255 216 buf = none) :
    extract buf = ([], buf) := by
  cases buf with
  | nil => rfl
  | cons x t => simp [extract, extractF, h]

theorem extract_no_end {buf : List Nat} {s : Nat}
    (h1 : find2 255 216 buf = some s) (h2 : find2 255 217 (buf.drop s) = none) :
    extract buf = ([], buf) := by
  cases buf with
  | nil => simp [find2] at h1
  | cons x t => simp [extract, extractF, h1, h2]

theorem extract_emit {buf : List Nat} {s e0 : Nat}
    (h1 : find2 255 216 buf = some s) (h2 : find2 255 217 (buf.drop s) = some e0) :
    extract buf = ((buf.drop s).take (e0 + 2) :: (extract (buf.drop (s + e0 + 2))).1,
      (extract (buf.drop (s + e0 + 2))).2) := by
  have hocc := find2_eq_some_occursAt h2
  have hlen := occursAt_lt_length hocc
  rw [List.length_drop] at hlen
  have hs := find2_eq_some_occursAt h1
  have hslt : s + 2 ≤ buf.length := occursAt_lt_length hs
  obtain ⟨n, hn⟩ : ∃ n, buf.length = n + 1 := ⟨buf.length - 1, by omega⟩
  have hrest : (buf.drop (s + e0 + 2)).length ≤ n := by
    rw [List.length_drop]
    omega
  rw [extract, hn, extractF_succ_emit n h1 h2,
    extractF_fuel n (buf.drop (s + e0 + 2)).length (buf.drop (s + e0 + 2)) hrest
      (Nat.le_refl _)]
  rfl

/-- Concatenation of a list of byte lists (also used for event traces). -/
def concatAll {α : Type} : List (List α) → List α
  | [] => []
  | l :: ls => l ++ concatAll ls

/-- One connection's chunk loop in `StreamProxy.start_capture`: starting from
buffer `buf`, append each received chunk in order and run the marker-search
loop after each append.  Returns all frames emitted (in order) and the final
buffer.  In the source the buffer is initialised to `b''` at the start of each
successful connection. -/
def ingestAll : List Nat → List (List Nat) → List (List Nat) × List Nat
  | buf, [] => ([], buf)
  | buf, c :: cs =>
    let p := extract (buf ++ c)
    let q := ingestAll p.2 cs
    (p.1 ++ q.1, q.2)

theorem occursAt_append_left {a b : Nat} {l t : List Nat} {n : Nat}
    (h : occursAt a b l n) : occursAt a b (l ++ t) n := by
  have hl := occursAt_lt_length h
  rcases h with ⟨h1, h2⟩
  exact ⟨by rw [List.getElem?_append_left (by omega)]; exact h1,
    by rw [List.getElem?_append_left (by omega)]; exact h2⟩

theorem occursAt_append_back {a b : Nat} {l t : List Nat} {n : Nat}
    (h : occursAt a b (l ++ t) n) (hn : n + 2 ≤ l.length) : occursAt a b l n := by
  rcases h with ⟨h1, h2⟩
  rw [List.getElem?_append_left (by omega)] at h1
  rw [List.getElem?_append_left (by omega)] at h2
  exact ⟨h1, h2⟩

theorem occursAt_drop {a b : Nat} (d : Nat) {l : List Nat} (n : Nat) :
    occursAt a b (l.drop d) n ↔ occursAt a b l (d + n) := by
  unfold occursAt
  rw [List.getElem?_drop, List.getElem?_drop]
  have h : d + (n + 1) = d + n + 1 := by omega
  rw [h]

/-- A JPEG byte range as required for the amended claim C1: it begins with the
start marker `ff d8`, and the first occurrence of the end marker `ff d9` in it
is at its last two positions (so it ends with the end marker and contains it
nowhere else). -/
def GoodRange (r : List Nat) : Prop :=
  r.take 2 = [255, 216] ∧ find2 255 217 r = some (r.length - 2)

instance (r : List Nat) : Decidable (GoodRange r) := by
  unfold GoodRange; infer_instance

theorem GoodRange.start_bytes {r : List Nat} (h : GoodRange r) :
    r[0]? = some 255 ∧ r[1]? = some 216 := by
  rcases h with ⟨h1, _⟩
  constructor
  · rw [← List.getElem?_take_of_lt (show (0 : Nat) < 2 by omega), h1]; rfl
  · rw [← List.getElem?_take_of_lt (show (1 : Nat) < 2 by omega), h1]; rfl

theorem GoodRange.length_ge {r : List Nat} (h : GoodRange r) : 4 ≤ r.length := by
  rcases h.start_bytes with ⟨hb0, hb1⟩
  rcases find2_eq_some_occursAt h.2 with ⟨he0, he1⟩
  rcases List.getElem?_eq_some.mp hb1 with ⟨hlt0, _⟩
  by_contra hc
  push_neg at hc
  have hor : r.length = 2 ∨ r.length = 3 := by omega
  rcases hor with h2 | h3
  · rw [h2] at he1
    norm_num at he1
    rw [hb1] at he1
    simp at he1
  · rw [h3] at he0
    norm_num at he0
    rw [hb1] at he0
    simp at he0

theorem concatAll_append {α : Type} (xs ys : List (List α)) :
    concatAll (xs ++ ys) = concatAll xs ++ concatAll ys := by
  induction xs with
  | nil => rfl
  | cons x xs ih => simp [concatAll, ih]

theorem extract_ranges : ∀ (n : Nat) (rs : List (List Nat)) (B T : List Nat),
    B.length ≤ n → (∀ r ∈ rs, GoodRange r) → B ++ T = concatAll rs →
    ∃ k, k ≤ rs.length ∧
      extract B = (rs.take k, B.drop (concatAll (rs.take k)).length) ∧
      (concatAll (rs.take k)).length ≤ B.length ∧
      (∃ T2, B.drop (concatAll (rs.take k)).length ++ T2 = concatAll (rs.drop k)) ∧
      (k = rs.length ∨ B.length < (concatAll (rs.take (k + 1))).length) := by
  intro n
  induction n with
  | zero =>
    intro rs B T hB hg hBT
    have hBnil : B = [] := List.length_eq_zero.mp (Nat.le_zero.mp hB)
    subst hBnil
    refine ⟨0, Nat.zero_le _, by simp [concatAll, extract, extractF],
      by simp [concatAll], ⟨T, by simpa [concatAll] using hBT⟩, ?_⟩
    cases rs with
    | nil => left; rfl
    | cons r rs' =>
      right
      have := (hg r (by simp)).length_ge
      simp [concatAll]
      omega
  | succ n ih =>
    intro rs B T hB hg hBT
    cases rs with
    | nil =>
      have hBnil : B = [] ∧ T = [] := by
        rw [show concatAll ([] : List (List Nat)) = [] from rfl] at hBT
        exact List.append_eq_nil.mp hBT
      rcases hBnil with ⟨h1, _⟩
      subst h1
      exact ih [] [] T (by simp) hg hBT
    | cons r rs' =>
      have hgr : GoodRange r := hg r (by simp)
      have hlen4 := hgr.length_ge
      by_cases hBr : B.length < r.length
      · have hext : extract B = ([], B) := by
          cases hs : find2 255 216 B with
          | none => exact extract_no_start hs
          | some s =>
            cases he : find2 255 217 (B.drop s) with
            | none => exact extract_no_end hs he
            | some e0 =>
              exfalso
              have hocc := find2_eq_some_occursAt he
              rw [occursAt_drop] at hocc
              have hlt := occursAt_lt_length hocc
              have hoccB : occursAt 255 217 (r ++ concatAll rs') (s + e0) := by
                rw [show r ++ concatAll rs' = concatAll (r :: rs') from rfl, ← hBT]
                exact occursAt_append_left hocc
              have hocr : occursAt 255 217 r (s + e0) :=
                occursAt_append_back hoccB (by omega)
              exact ((find2_eq_some_iff 255 217 r (r.length - 2)).mp hgr.2).2
                (s + e0) (by omega) hocr
        refine ⟨0, Nat.zero_le _, by simpa [concatAll] using hext,
          by simp [concatAll], ⟨T, by simpa [concatAll] using hBT⟩, ?_⟩
        right
        simp [concatAll]
        omega
      · push_neg at hBr
        have hBtake : B.take r.length = r := by
          have h1 := congrArg (List.take r.length) hBT
          rw [List.take_append_of_le_length hBr,
            show concatAll (r :: rs') = r ++ concatAll rs' from rfl,
            List.take_left] at h1
          exact h1
        have hBsplit : B = r ++ B.drop r.length := by
          conv_lhs => rw [← List.take_append_drop r.length B]
          rw [hBtake]
        have hB2T : B.drop r.length ++ T = concatAll rs' := by
          have h2 : (r ++ B.drop r.length) ++ T = r ++ concatAll rs' := by
            rw [← hBsplit]; exact hBT
          rw [List.append_assoc] at h2
          exact List.append_cancel_left h2
        have hstart : find2 255 216 B = some 0 := by
          rw [find2_eq_some_iff]
          refine ⟨?_, fun m hm => absurd hm (by omega)⟩
          rcases hgr.start_bytes with ⟨hb0, hb1⟩
          constructor
          · rw [hBsplit, List.getElem?_append_left (by omega)]; exact hb0
          · rw [hBsplit, List.getElem?_append_left (by omega)]; exact hb1
        have hend : find2 255 217 (B.drop 0) = some (r.length - 2) := by
          rw [List.drop_zero, find2_eq_some_iff]
          constructor
          · rw [hBsplit]
            exact occursAt_append_left (find2_eq_some_occursAt hgr.2)
          · intro m hm hocc
            have hocr : occursAt 255 217 r m := by
              rw [hBsplit] at hocc
              exact occursAt_append_back hocc (by omega)
            exact ((find2_eq_some_iff 255 217 r (r.length - 2)).mp hgr.2).2 m hm hocr
        have hstep := extract_emit hstart hend
        rw [List.drop_zero, show r.length - 2 + 2 = r.length from by omega,
          show 0 + (r.length - 2) + 2 = r.length from by omega, hBtake] at hstep
        have hB2len : (B.drop r.length).length ≤ n := by
          rw [List.length_drop]; omega
        rcases ih rs' (B.drop r.length) T hB2len
          (fun r' hr' => hg r' (by simp [hr'])) hB2T with
          ⟨k', hk'le, hextB2, hdone', ⟨T2, hT2⟩, hshort⟩
        have hBlen : B.length = r.length + (B.drop r.length).length := by
          rw [List.length_drop]; omega
        have hdropEq : (B.drop r.length).drop (concatAll (rs'.take k')).length =
            B.drop (concatAll (r :: rs'.take k')).length := by
          rw [show concatAll (r :: rs'.take k') = r ++ concatAll (rs'.take k') from rfl,
            List.length_append, List.drop_drop]
        refine ⟨k' + 1, by simpa using hk'le, ?_, ?_, ?_, ?_⟩
        · rw [List.take_succ_cons, hstep, hextB2]
          dsimp only
          rw [hdropEq]
        · rw [List.take_succ_cons,
            show concatAll (r :: rs'.take k') = r ++ concatAll (rs'.take k') from rfl,
            List.length_append]
          omega
        · refine ⟨T2, ?_⟩
          rw [List.take_succ_cons, ← hdropEq, List.drop_succ_cons]
          exact hT2
        · rcases hshort with hl | hr
          · left; simp [hl]
          · right
            rw [List.take_succ_cons,
              show concatAll (r :: rs'.take (k' + 1)) = r ++ concatAll (rs'.take (k' + 1)) from rfl,
              List.length_append]
            omega

theorem concatAll_take_le (rs : List (List Nat)) (k : Nat) :
    (concatAll (rs.take k)).length ≤ (concatAll rs).length := by
  conv_rhs => rw [← List.take_append_drop k rs]
  rw [concatAll_append, List.length_append]
  omega

theorem ingestAll_ranges : ∀ (cs rs : List (List Nat)) (B : List Nat),
    (∀ r ∈ rs, GoodRange r) → B ++ concatAll cs = concatAll rs →
    (rs = [] ∨ B.length < (concatAll (rs.take 1)).length) →
    ingestAll B cs = (rs, []) := by
  intro cs
  induction cs with
  | nil =>
    intro rs B hg hBT hshort
    rw [show concatAll ([] : List (List Nat)) = [] from rfl, List.append_nil] at hBT
    rcases hshort with h | h
    · subst h
      rw [show concatAll ([] : List (List Nat)) = [] from rfl] at hBT
      rw [hBT]
      rfl
    · exfalso
      have h1 := concatAll_take_le rs 1
      have h2 := congrArg List.length hBT
      omega
  | cons c cs' ih =>
    intro rs B hg hBT hshort
    have hpre : (B ++ c) ++ concatAll cs' = concatAll rs := by
      rw [show concatAll (c :: cs') = c ++ concatAll cs' from rfl] at hBT
      rw [List.append_assoc]
      exact hBT
    rcases extract_ranges (B ++ c).length rs (B ++ c) (concatAll cs')
      (Nat.le_refl _) hg hpre with ⟨k, hkle, hext, hdone, ⟨T2, hT2⟩, hshort2⟩
    have hg' : ∀ r ∈ rs.drop k, GoodRange r := fun r hr => hg r (List.drop_subset k rs hr)
    have hlen_take : ((B ++ c).take (concatAll (rs.take k)).length).length =
        (concatAll (rs.take k)).length := by
      rw [List.length_take]
      omega
    have hsplit2 : ((B ++ c).take (concatAll (rs.take k)).length) ++
        (((B ++ c).drop (concatAll (rs.take k)).length) ++ concatAll cs') =
        concatAll (rs.take k) ++ concatAll (rs.drop k) := by
      rw [← List.append_assoc, List.take_append_drop, hpre, ← concatAll_append,
        List.take_append_drop]
    have hinj := List.append_inj hsplit2 hlen_take
    have hshort' : rs.drop k = [] ∨
        ((B ++ c).drop (concatAll (rs.take k)).length).length <
          (concatAll ((rs.drop k).take 1)).length := by
      rcases hshort2 with h | h
      · left
        rw [h, List.drop_length]
      · right
        have htk : rs.take (k + 1) = rs.take k ++ (rs.drop k).take 1 :=
          List.take_add rs k 1
        rw [htk, concatAll_append] at h
        rw [List.length_drop]
        simp only [List.length_append] at h hdone ⊢
        omega
    have hres := ih (rs.drop k) ((B ++ c).drop (concatAll (rs.take k)).length)
      hg' hinj.2 hshort'
    show (let p := extract (B ++ c); let q := ingestAll p.2 cs';
      (p.1 ++ q.1, q.2)) = (rs, [])
    rw [hext]
    dsimp only
    rw [hres]
    dsimp only
    rw [List.take_append_drop]

/-- Well-formedness exactly as the claim C1 words it: the range starts with
the start marker `ff d8` and ends with the end marker `ff d9`.  (Nothing is
required about interior occurrences of the end marker.) -/
def ClaimWellFormed (r : List Nat) : Prop :=
  r.take 2 = [255, 216] ∧ r.drop (r.length - 2) = [255, 217]

instance (r : List Nat) : Decidable (ClaimWellFormed r) := by
  unfold ClaimWellFormed; infer_instance

/-- C1, counterexample: the single byte range `ff d8 ff d9 ff d9` starts with
the start marker and ends with the end marker (so it is well-formed in the
claim's sense), the stream is fed as one chunk, yet the Frame Extractor's
output is not the list containing that range: the emitted frame is cut at the
interior end marker (`ff d8 ff d9`), so it is not byte-identical to the
original range. -/
theorem c1_counterexample :
    (∀ r ∈ [[255, 216, 255, 217, 255, 217]], ClaimWellFormed r) ∧
    concatAll [[255, 216, 255, 217, 255, 217]] =
      concatAll [[255, 216, 255, 217, 255, 217]] ∧
    (ingestAll [] [[255, 216, 255, 217, 255, 217]]).1 ≠
      [[255, 216, 255, 217, 255, 217]] := by
  refine ⟨by decide, rfl, by decide⟩

/-- C1 (amended): for ranges that start with `ff d8`, end with `ff d9` and
contain the end marker nowhere except their final two bytes, every chunking
of the concatenated ranges makes the Frame Extractor emit exactly the
original ranges, byte-identical and in order, leaving an empty buffer. -/
theorem c1_amended_extractor_exact (rs cs : List (List Nat))
    (hg : ∀ r ∈ rs, GoodRange r) (hc : concatAll cs = concatAll rs) :
    ingestAll [] cs = (rs, []) := by
  apply ingestAll_ranges cs rs [] hg (by simpa using hc)
  cases rs with
  | nil => exact Or.inl rfl
  | cons r rs' =>
    right
    have h4 := (hg r (by simp)).length_ge
    simp [concatAll]
    omega

/-- Witness for C1 (amended): two well-formed ranges, chunk boundaries
falling inside markers, reproduced exactly. -/
theorem c1_amended_witness :
    (∀ r ∈ [[255, 216, 255, 217], [255, 216, 1, 2, 255, 217]], GoodRange r) ∧
    concatAll [[255, 216], [255, 217, 255], [216, 1, 2], [255, 217]] =
      concatAll [[255, 216, 255, 217], [255, 216, 1, 2, 255, 217]] ∧
    ingestAll [] [[255, 216], [255, 217, 255], [216, 1, 2], [255, 217]] =
      ([[255, 216, 255, 217], [255, 216, 1, 2, 255, 217]], []) :=
  ⟨by decide, by decide,
    c1_amended_extractor_exact [[255, 216, 255, 217], [255, 216, 1, 2, 255, 217]]
      [[255, 216], [255, 217, 255], [216, 1, 2], [255, 217]] (by decide) (by decide)⟩

/-- The hypothesis of claim C5 on a byte stream: there is no occurrence of
the end marker at or after the first occurrence of the start marker
(vacuously true when there is no start marker at all). -/
def NoEndAfterStart (S : List Nat) : Prop :=
  ∀ p, find2 255 216 S = some p → find2 255 217 (S.drop p) = none

theorem find2_le_of_occursAt {a b : Nat} {l : List Nat} {n : Nat}
    (h : occursAt a b l n) : ∃ p, p ≤ n ∧ find2 a b l = some p := by
  cases hf : find2 a b l with
  | none => exact absurd h ((find2_eq_none_iff a b l).mp hf n)
  | some p =>
    rcases (find2_eq_some_iff a b l p).mp hf with ⟨ho, hmin⟩
    by_cases hpn : p ≤ n
    · exact ⟨p, hpn, rfl⟩
    · exact absurd h (hmin n (by omega))

theorem extract_of_noEnd {S P T : List Nat} (hS : NoEndAfterStart S)
    (hPT : P ++ T = S) : extract P = ([], P) := by
  cases hs : find2 255 216 P with
  | none => exact extract_no_start hs
  | some s =>
    cases he : find2 255 217 (P.drop s) with
    | none => exact extract_no_end hs he
    | some e0 =>
      exfalso
      have hoccP : occursAt 255 217 P (s + e0) := by
        rw [← occursAt_drop]
        exact find2_eq_some_occursAt he
      have hoccS : occursAt 255 217 S (s + e0) := by
        rw [← hPT]
        exact occursAt_append_left hoccP
      have hoccSs : occursAt 255 216 S s := by
        rw [← hPT]
        exact occursAt_append_left (find2_eq_some_occursAt hs)
      rcases find2_le_of_occursAt hoccSs with ⟨p, hps, hfp⟩
      have hnone := (find2_eq_none_iff 255 217 (S.drop p)).mp (hS p hfp) (s + e0 - p)
      rw [occursAt_drop, show p + (s + e0 - p) = s + e0 from by omega] at hnone
      exact hnone hoccS

theorem ingestAll_keeps : ∀ (cs : List (List Nat)) (B T S : List Nat),
    NoEndAfterStart S → (B ++ concatAll cs) ++ T = S →
    ingestAll B cs = ([], B ++ concatAll cs) := by
  intro cs
  induction cs with
  | nil =>
    intro B T S hS hEq
    simp [ingestAll, concatAll]
  | cons c cs' ih =>
    intro B T S hS hEq
    have hPT : (B ++ c) ++ (concatAll cs' ++ T) = S := by
      rw [← hEq, show concatAll (c :: cs') = c ++ concatAll cs' from rfl]
      simp [List.append_assoc]
    have hext := extract_of_noEnd hS hPT
    have hEq' : ((B ++ c) ++ concatAll cs') ++ T = S := by
      rw [← hPT, List.append_assoc]
    have hres := ih (B ++ c) T S hS hEq'
    show (let p := extract (B ++ c); let q := ingestAll p.2 cs';
      (p.1 ++ q.1, q.2)) = ([], B ++ concatAll (c :: cs'))
    rw [hext]
    dsimp only
    rw [hres]
    dsimp only
    rw [show concatAll (c :: cs') = c ++ concatAll cs' from rfl, List.append_assoc]
    simp

/-- C5: when the input stream has no end marker at or after its first start
marker, the Frame Extractor emits no frame and the accumulation buffer after
all chunks equals the concatenation of every byte received — nothing is ever
drained, so the buffer size equals the total number of bytes received and
grows without bound as more chunks arrive. -/
theorem c5_buffer_unbounded (cs : List (List Nat))
    (h : NoEndAfterStart (concatAll cs)) :
    ingestAll [] cs = ([], concatAll cs) := by
  have hres := ingestAll_keeps cs [] [] (concatAll cs) h (by simp)
  simpa using hres

/-- Witness for C5: a stream with a start marker but no end marker; every
byte stays in the buffer and no frame is emitted. -/
theorem c5_buffer_unbounded_witness :
    ingestAll [] [[1, 255, 216, 2], [255, 3]] =
      ([], [1, 255, 216, 2, 255, 3]) := by
  have hne : NoEndAfterStart (concatAll [[1, 255, 216, 2], [255, 3]]) := by
    intro p hp
    rw [show find2 255 216 (concatAll [[1, 255, 216, 2], [255, 3]]) = some 1
      from by decide] at hp
    injection hp with hh
    subst hh
    decide
  have hres := c5_buffer_unbounded [[1, 255, 216, 2], [255, 3]] hne
  simpa using hres

theorem take_two_of_getElem? {l : List Nat} {a b : Nat}
    (h0 : l[0]? = some a) (h1 : l[1]? = some b) : l.take 2 = [a, b] := by
  cases l with
  | nil => simp at h0
  | cons x t =>
    cases t with
    | nil => simp at h1
    | cons y t' =>
      simp at h0 h1
      simp [h0, h1]

/-- Shape of every frame produced by the marker-search loop: it starts with
the start marker, ends with the end marker, has length at least four, and
contains the end marker only at its final two positions. -/
theorem extractF_frame_shape : ∀ (fuel : Nat) (buf f : List Nat),
    f ∈ (extractF fuel buf).1 →
    f.take 2 = [255, 216] ∧ f.drop (f.length - 2) = [255, 217] ∧ 4 ≤ f.length ∧
      (∀ n, occursAt 255 217 f n → n = f.length - 2) := by
  intro fuel
  induction fuel with
  | zero => intro buf f hf; simp [extractF] at hf
  | succ fuel ih =>
    intro buf f hf
    cases hs : find2 255 216 buf with
    | none =>
      rw [extractF_succ_no_start fuel hs] at hf
      simp at hf
    | some s =>
      cases he : find2 255 217 (buf.drop s) with
      | none =>
        rw [extractF_succ_no_end fuel hs he] at hf
        simp at hf
      | some e0 =>
        rw [extractF_succ_emit fuel hs he] at hf
        rcases List.mem_cons.mp hf with hfr | hrec
        · subst hfr
          rcases find2_eq_some_occursAt hs with ⟨hs0, hs1⟩
          rcases (find2_eq_some_iff 255 217 (buf.drop s) e0).mp he with ⟨⟨he0, he1⟩, hemin⟩
          have hD0 : (buf.drop s)[0]? = some 255 := by
            rw [List.getElem?_drop]
            simpa using hs0
          have hD1 : (buf.drop s)[1]? = some 216 := by
            rw [List.getElem?_drop]
            exact hs1
          have hDlen : e0 + 2 ≤ (buf.drop s).length :=
            occursAt_lt_length ⟨he0, he1⟩
          have he0ge : 2 ≤ e0 := by
            by_contra hlt
            push_neg at hlt
            have hor : e0 = 0 ∨ e0 = 1 := by omega
            rcases hor with h0 | h01
            · subst h0
              rw [hD1] at he1
              simp at he1
            · subst h01
              rw [hD1] at he0
              simp at he0
          have hflen : ((buf.drop s).take (e0 + 2)).length = e0 + 2 := by
            rw [List.length_take]
            omega
          refine ⟨?_, ?_, by omega, ?_⟩
          · rw [List.take_take, Nat.min_eq_left (by omega)]
            exact take_two_of_getElem? hD0 hD1
          · rw [hflen, show e0 + 2 - 2 = e0 from by omega, List.drop_take,
              show e0 + 2 - e0 = 2 from by omega]
            refine take_two_of_getElem? ?_ ?_
            · rw [List.getElem?_drop]
              exact he0
            · rw [List.getElem?_drop]
              exact he1
          · intro n hn
            rcases hn with ⟨hn0, hn1⟩
            have hb1 : n + 1 < e0 + 2 := by
              rcases List.getElem?_eq_some.mp hn1 with ⟨hlt, _⟩
              rw [hflen] at hlt
              exact hlt
            have hn0' : (buf.drop s)[n]? = some 255 := by
              rw [← List.getElem?_take_of_lt (show n < e0 + 2 from by omega)]
              exact hn0
            have hn1' : (buf.drop s)[n + 1]? = some 217 := by
              rw [← List.getElem?_take_of_lt hb1]
              exact hn1
            rw [hflen]
            by_contra hne
            have hlt : n < e0 := by omega
            exact hemin n hlt ⟨hn0', hn1'⟩
        · exact ih (buf.drop (s + e0 + 2)) f hrec

theorem ingest_frame_shape : ∀ (cs : List (List Nat)) (B f : List Nat),
    f ∈ (ingestAll B cs).1 →
    f.take 2 = [255, 216] ∧ f.drop (f.length - 2) = [255, 217] ∧ 4 ≤ f.length ∧
      (∀ n, occursAt 255 217 f n → n = f.length - 2) := by
  intro cs
  induction cs with
  | nil => intro B f hf; simp [ingestAll] at hf
  | cons c cs' ih =>
    intro B f hf
    rcases List.mem_append.mp hf with h1 | h2
    · exact extractF_frame_shape (B ++ c).length (B ++ c) f h1
    · exact ih (extract (B ++ c)).2 f h2

/-- C7: every frame emitted by the Frame Extractor — for any input byte
stream, well-formed or not — has length at least 4, begins with the start
marker `ff d8` and ends with the end marker `ff d9`, both inclusive. -/
theorem c7_frame_delimiters (cs : List (List Nat)) (f : List Nat)
    (hf : f ∈ (ingestAll [] cs).1) :
    4 ≤ f.length ∧ f.take 2 = [255, 216] ∧ f.drop (f.length - 2) = [255, 217] := by
  rcases ingest_frame_shape cs [] f hf with ⟨h1, h2, h3, _⟩
  exact ⟨h3, h1, h2⟩

/-- Witness for C7 on a stream with junk around the frame. -/
theorem c7_frame_delimiters_witness :
    [255, 216, 7, 255, 217] ∈ (ingestAll [] [[0, 255, 216, 7], [255, 217, 9]]).1 ∧
    4 ≤ ([255, 216, 7, 255, 217] : List Nat).length ∧
    ([255, 216, 7, 255, 217] : List Nat).take 2 = [255, 216] ∧
    ([255, 216, 7, 255, 217] : List Nat).drop
      (([255, 216, 7, 255, 217] : List Nat).length - 2) = [255, 217] :=
  ⟨by decide, c7_frame_delimiters [[0, 255, 216, 7], [255, 217, 9]]
    [255, 216, 7, 255, 217] (by decide)⟩

/-- C8: in any emitted frame the end marker occurs only at the frame's final
two bytes — the frame ends at the first end marker at or after its start
marker, so an upstream JPEG containing an embedded end marker is cut there
rather than emitted whole. -/
theorem c8_cut_at_first_end_marker (cs : List (List Nat)) (f : List Nat) (n : Nat)
    (hf : f ∈ (ingestAll [] cs).1) (hn : occursAt 255 217 f n) :
    n = f.length - 2 :=
  (ingest_frame_shape cs [] f hf).2.2.2 n hn

/-- Witness for C8: a single upstream JPEG-like range with an embedded end
marker is cut at the embedded marker. -/
theorem c8_cut_at_first_end_marker_witness :
    (ingestAll [] [[255, 216, 0, 255, 217, 1, 255, 217]]).1 =
      [[255, 216, 0, 255, 217]] ∧
    [255, 216, 0, 255, 217] ∈ (ingestAll [] [[255, 216, 0, 255, 217, 1, 255, 217]]).1 ∧
    occursAt 255 217 [255, 216, 0, 255, 217] 3 ∧
    (3 : Nat) = ([255, 216, 0, 255, 217] : List Nat).length - 2 :=
  ⟨by decide, by decide, by decide,
    c8_cut_at_first_end_marker [[255, 216, 0, 255, 217, 1, 255, 217]]
      [255, 216, 0, 255, 217] 3 (by decide) (by decide)⟩

/-- Interleaving of discarded junk and emitted frames:
`glue [j1, ..., jk] [f1, ..., fk] = j1 ++ f1 ++ ... ++ jk ++ fk`. -/
def glue : List (List Nat) → List (List Nat) → List Nat
  | j :: js, f :: fs => j ++ f ++ glue js fs
  | _, _ => []

theorem glue_append : ∀ (js1 fs1 js2 fs2 : List (List Nat)),
    js1.length = fs1.length →
    glue (js1 ++ js2) (fs1 ++ fs2) = glue js1 fs1 ++ glue js2 fs2 := by
  intro js1
  induction js1 with
  | nil =>
    intro fs1 js2 fs2 hlen
    have hfs : fs1 = [] := List.length_eq_zero.mp hlen.symm
    subst hfs
    simp [glue]
  | cons j js ih =>
    intro fs1 js2 fs2 hlen
    cases fs1 with
    | nil => simp at hlen
    | cons f fs =>
      have hlen' : js.length = fs.length := by simpa using hlen
      show j ++ f ++ glue (js ++ js2) (fs ++ fs2) =
        (j ++ f ++ glue js fs) ++ glue js2 fs2
      rw [ih fs js2 fs2 hlen']
      simp [List.append_assoc]

theorem extractF_decomp : ∀ (fuel : Nat) (buf : List Nat), buf.length ≤ fuel →
    ∃ js : List (List Nat), js.length = (extractF fuel buf).1.length ∧
      glue js (extractF fuel buf).1 ++ (extractF fuel buf).2 = buf := by
  intro fuel
  induction fuel with
  | zero =>
    intro buf h
    have hb : buf = [] := List.length_eq_zero.mp (Nat.le_zero.mp h)
    subst hb
    exact ⟨[], rfl, rfl⟩
  | succ fuel ih =>
    intro buf hlen
    cases hs : find2 255 216 buf with
    | none =>
      rw [extractF_succ_no_start fuel hs]
      exact ⟨[], rfl, rfl⟩
    | some s =>
      cases he : find2 255 217 (buf.drop s) with
      | none =>
        rw [extractF_succ_no_end fuel hs he]
        exact ⟨[], rfl, rfl⟩
      | some e0 =>
        rw [extractF_succ_emit fuel hs he]
        have hocc := find2_eq_some_occursAt he
        have hend := occursAt_lt_length hocc
        rw [List.length_drop] at hend
        have hrec : (buf.drop (s + e0 + 2)).length ≤ fuel := by
          rw [List.length_drop]
          omega
        rcases ih (buf.drop (s + e0 + 2)) hrec with ⟨js, hjs, hglue⟩
        refine ⟨buf.take s :: js, by simp [glue, hjs], ?_⟩
        show ((buf.take s ++ (buf.drop s).take (e0 + 2)) ++
          glue js (extractF fuel (buf.drop (s + e0 + 2))).1) ++
          (extractF fuel (buf.drop (s + e0 + 2))).2 = buf
        rw [List.append_assoc, List.append_assoc, hglue,
          show buf.drop (s + e0 + 2) = (buf.drop s).drop (e0 + 2) from by
            rw [show s + e0 + 2 = s + (e0 + 2) from by omega, ← List.drop_drop],
          List.take_append_drop, List.take_append_drop]

theorem extract_decomp (buf : List Nat) :
    ∃ js : List (List Nat), js.length = (extract buf).1.length ∧
      glue js (extract buf).1 ++ (extract buf).2 = buf :=
  extractF_decomp buf.length buf (Nat.le_refl _)

theorem ingestAll_decomp : ∀ (cs : List (List Nat)) (B : List Nat),
    ∃ js : List (List Nat), js.length = (ingestAll B cs).1.length ∧
      glue js (ingestAll B cs).1 ++ (ingestAll B cs).2 = B ++ concatAll cs := by
  intro cs
  induction cs with
  | nil =>
    intro B
    exact ⟨[], rfl, by simp [ingestAll, concatAll, glue]⟩
  | cons c cs' ih =>
    intro B
    rcases extract_decomp (B ++ c) with ⟨js1, hjs1, hg1⟩
    rcases ih (extract (B ++ c)).2 with ⟨js2, hjs2, hg2⟩
    refine ⟨js1 ++ js2, ?_, ?_⟩
    · show (js1 ++ js2).length = ((extract (B ++ c)).1 ++
        (ingestAll (extract (B ++ c)).2 cs').1).length
      rw [List.length_append, List.length_append, hjs1, hjs2]
    · show glue (js1 ++ js2) ((extract (B ++ c)).1 ++
        (ingestAll (extract (B ++ c)).2 cs').1) ++
        (ingestAll (extract (B ++ c)).2 cs').2 = B ++ concatAll (c :: cs')
      rw [glue_append js1 (extract (B ++ c)).1 js2
        (ingestAll (extract (B ++ c)).2 cs').1 hjs1,
        List.append_assoc, hg2,
        show concatAll (c :: cs') = c ++ concatAll cs' from rfl,
        ← List.append_assoc, hg1, List.append_assoc]

theorem ingestAll_append : ∀ (cs1 cs2 : List (List Nat)) (B : List Nat),
    ingestAll B (cs1 ++ cs2) =
      ((ingestAll B cs1).1 ++ (ingestAll (ingestAll B cs1).2 cs2).1,
        (ingestAll (ingestAll B cs1).2 cs2).2) := by
  intro cs1
  induction cs1 with
  | nil => intro cs2 B; simp [ingestAll]
  | cons c cs1' ih =>
    intro cs2 B
    rw [List.cons_append]
    simp only [ingestAll]
    rw [ih cs2 (extract (B ++ c)).2]
    simp [List.append_assoc]

/-- C6: (i) the received bytes decompose into discarded-junk/frame segments
in emission order followed by the remaining buffer — every emitted frame's
bytes (end marker included) had already arrived, and distinct emissions
consume disjoint consecutive byte regions, so no frame is emitted twice;
(ii) the frames emitted after any prefix of the chunk sequence are a prefix
of the frames emitted for the whole sequence (a partial frame stays buffered
across chunk boundaries and is only ever emitted once completed); (iii) every
emitted frame ends with the end marker. -/
theorem c6_complete_frames_once (cs : List (List Nat)) :
    (∃ js : List (List Nat), js.length = (ingestAll [] cs).1.length ∧
      glue js (ingestAll [] cs).1 ++ (ingestAll [] cs).2 = concatAll cs) ∧
    (∀ k, ∃ t, (ingestAll [] (cs.take k)).1 ++ t = (ingestAll [] cs).1) ∧
    (∀ f ∈ (ingestAll [] cs).1, f.drop (f.length - 2) = [255, 217]) := by
  refine ⟨?_, ?_, ?_⟩
  · rcases ingestAll_decomp cs [] with ⟨js, h1, h2⟩
    exact ⟨js, h1, by simpa using h2⟩
  · intro k
    refine ⟨(ingestAll (ingestAll [] (cs.take k)).2 (cs.drop k)).1, ?_⟩
    conv_rhs => rw [show cs = cs.take k ++ cs.drop k from (List.take_append_drop k cs).symm]
    rw [ingestAll_append]
  · intro f hf
    exact (ingest_frame_shape cs [] f hf).2.1

/-- Witness for C6: after one of two chunks, the partially arrived frame is
still buffered; the frames emitted so far are a prefix of the final frames. -/
theorem c6_complete_frames_once_witness :
    ∃ t, (ingestAll [] ([[255, 216, 255], [217, 3]].take 1)).1 ++ t =
      (ingestAll [] [[255, 216, 255], [217, 3]]).1 :=
  (c6_complete_frames_once [[255, 216, 255], [217, 3]]).2.1 1

/-- How the chunk stream of an open connection ends. -/
inductive StreamEnd
  | eof
  | readError
deriving DecidableEq

/-- Outcome of one iteration of the `while self.running` loop in
`StreamProxy.start_capture`: either `session.get` raises, or it yields a
response with a status; for a 200 status the chunk loop consumes `chunks`
and then the stream ends by `term`. -/
inductive ConnResult
  | connectError
  | response (status : Nat) (chunks : List (List Nat)) (term : StreamEnd)
deriving DecidableEq

/-- Observable events of the capture loop. -/
inductive Event
  | connectAttempt
  | frameEmit (f : List Nat)
  | backoffSleep
deriving DecidableEq

/-- Events of one iteration of the `while self.running` loop: the
`session.get` attempt; on a 200 status the frames extracted from the
received chunks; and `await asyncio.sleep(1)` exactly when an exception was
caught (connect error, or read error while streaming).  A clean end of
stream leaves the `async with` block without an exception and a non-200
status skips the body, so in both of those cases the loop re-runs
immediately with no sleep. -/
def iterEvents : ConnResult → List Event
  | ConnResult.connectError => [Event.connectAttempt, Event.backoffSleep]
  | ConnResult.response status chunks term =>
    if status = 200 then
      Event.connectAttempt :: ((ingestAll [] chunks).1.map Event.frameEmit ++
        (match term with
          | StreamEnd.eof => []
          | StreamEnd.readError => [Event.backoffSleep]))
    else [Event.connectAttempt]

/-- Event trace of the capture loop over a sequence of connection outcomes,
with no shutdown signalled (`self.running` stays true throughout). -/
def captureTrace (cs : List ConnResult) : List Event :=
  concatAll (cs.map iterEvents)

def isConnectAttempt : Event → Bool
  | Event.connectAttempt => true
  | _ => false

/-- The connection ended with a caught exception: the connect itself failed,
or a read error occurred while streaming a 200 response. -/
def errorTermination : ConnResult → Prop
  | ConnResult.connectError => True
  | ConnResult.response status _ term => status = 200 ∧ term = StreamEnd.readError

instance : ∀ c : ConnResult, Decidable (errorTermination c)
  | ConnResult.connectError => Decidable.isTrue trivial
  | ConnResult.response status _ term => by
    show Decidable (status = 200 ∧ term = StreamEnd.readError)
    infer_instance

/-- The connection streamed a 200 response and ended with a clean EOF. -/
def eofTermination : ConnResult → Prop
  | ConnResult.response status _ term => status = 200 ∧ term = StreamEnd.eof
  | _ => False

instance : ∀ c : ConnResult, Decidable (eofTermination c)
  | ConnResult.connectError => Decidable.isFalse (fun h => h)
  | ConnResult.response status _ term => by
    show Decidable (status = 200 ∧ term = StreamEnd.eof)
    infer_instance

theorem iterEvents_one_attempt (c : ConnResult) :
    ((iterEvents c).filter isConnectAttempt).length = 1 := by
  cases c with
  | connectError => rfl
  | response status chunks term =>
    by_cases hs : status = 200
    · simp only [iterEvents, if_pos hs, List.filter_cons, List.filter_append]
      have hmap : ((ingestAll [] chunks).1.map Event.frameEmit).filter
          isConnectAttempt = [] := by
        rw [List.filter_eq_nil_iff]
        intro e he
        rcases List.mem_map.mp he with ⟨f, _, hfe⟩
        subst hfe
        simp [isConnectAttempt]
      rw [hmap]
      cases term <;> rfl
    · simp [iterEvents, if_neg hs, isConnectAttempt]

theorem captureTrace_attempts (cs : List ConnResult) :
    ((captureTrace cs).filter isConnectAttempt).length = cs.length := by
  induction cs with
  | nil => rfl
  | cons c cs' ih =>
    show ((iterEvents c ++ concatAll (cs'.map iterEvents)).filter
      isConnectAttempt).length = cs'.length + 1
    rw [List.filter_append, List.length_append, iterEvents_one_attempt]
    rw [show (concatAll (cs'.map iterEvents)) = captureTrace cs' from rfl, ih]
    omega

/-- C2, counterexample: a 200 connection that terminates with a clean end of
stream (EOF) is followed by the next connection attempt with no backoff
sleep in between — the trace shows two adjacent connect attempts, and the
EOF-terminated iteration contains no `backoffSleep` at all, whereas the
claim requires every reconnection following an error or EOF to be preceded
by the fixed backoff wait. -/
theorem c2_counterexample :
    captureTrace [ConnResult.response 200 [] StreamEnd.eof,
        ConnResult.connectError] =
      [Event.connectAttempt, Event.connectAttempt, Event.backoffSleep] ∧
    eofTermination (ConnResult.response 200 [] StreamEnd.eof) ∧
    (iterEvents (ConnResult.response 200 [] StreamEnd.eof)).getLast? ≠
      some Event.backoffSleep ∧
    Event.backoffSleep ∉ iterEvents (ConnResult.response 200 [] StreamEnd.eof) := by
  refine ⟨by decide, by decide, by decide, by decide⟩

/-- C2 (amended): the capture loop is never ended by how a connection
terminates — the trace has exactly one connection attempt per outcome — and
a termination by a caught exception (connect error or read error) always
ends its iteration with the backoff sleep, so the following reconnection is
preceded by the fixed wait; a clean EOF instead reconnects immediately, its
iteration containing no backoff sleep. -/
theorem c2_amended_backoff_on_error (cs : List ConnResult) :
    ((captureTrace cs).filter isConnectAttempt).length = cs.length ∧
    (∀ c ∈ cs, errorTermination c →
      (iterEvents c).getLast? = some Event.backoffSleep) ∧
    (∀ c ∈ cs, eofTermination c → Event.backoffSleep ∉ iterEvents c) := by
  refine ⟨captureTrace_attempts cs, ?_, ?_⟩
  · intro c _ herr
    cases c with
    | connectError => rfl
    | response status chunks term =>
      rcases herr with ⟨hs, ht⟩
      subst hs
      subst ht
      show (Event.connectAttempt :: ((ingestAll [] chunks).1.map Event.frameEmit ++
        [Event.backoffSleep])).getLast? = some Event.backoffSleep
      rw [← List.cons_append, List.getLast?_concat]
  · intro c _ heof
    cases c with
    | connectError => exact absurd heof (fun h => h)
    | response status chunks term =>
      rcases heof with ⟨hs, ht⟩
      subst hs
      subst ht
      intro hmem
      show False
      rw [show iterEvents (ConnResult.response 200 chunks StreamEnd.eof) =
        Event.connectAttempt ::
          ((ingestAll [] chunks).1.map Event.frameEmit ++ []) from rfl] at hmem
      rcases List.mem_cons.mp hmem with h1 | h2
      · simp at h1
      · rw [List.append_nil] at h2
        rcases List.mem_map.mp h2 with ⟨f, _, hfe⟩
        simp at hfe

/-- Witness for C2 (amended) on a concrete outcome sequence. -/
theorem c2_amended_backoff_on_error_witness :
    ((captureTrace [ConnResult.connectError,
        ConnResult.response 200 [[255, 216, 255, 217]] StreamEnd.readError]).filter
      isConnectAttempt).length = 2 ∧
    (iterEvents ConnResult.connectError).getLast? = some Event.backoffSleep :=
  ⟨(c2_amended_backoff_on_error [ConnResult.connectError,
      ConnResult.response 200 [[255, 216, 255, 217]] StreamEnd.readError]).1,
    (c2_amended_backoff_on_error [ConnResult.connectError,
      ConnResult.response 200 [[255, 216, 255, 217]] StreamEnd.readError]).2.1
      ConnResult.connectError (by decide) trivial⟩

/-- A subscriber as seen by `StreamProxy.broadcast_frame`: an identifier, the
set of frame indices at which its `write` raises, and the byte sequences of
the writes it has accepted so far, in order.  (Whether a given write raises
is external behaviour of the client connection; indexing it by the frame
number loses no generality since each client receives at most one write per
broadcast frame.) -/
structure Subscriber where
  sid : Nat
  failSet : List Nat
  received : List (List Nat)
deriving DecidableEq

/-- The bytes written for one frame, exactly as built in `broadcast_frame`:
`frame_data = b'--frame\r\nContent-Type: image/jpeg\r\n\r\n' + frame + b'\r\n'`. -/
def frameData (frame : List Nat) : List Nat :=
  ("--frame\r\nContent-Type: image/jpeg\r\n\r\n".toList.map Char.toNat) ++
    frame ++ ("\r\n".toList.map Char.toNat)

/-- One call of `StreamProxy.broadcast_frame` for the frame with index `k`:
each registered client gets one `write` attempt of `frameData frame`
(recorded in its `received` log when the write succeeds); a client whose
write raises is caught by the per-client `try/except`, appended to
`dead_clients`, and after the iteration every dead client is discarded from
the registry.  Returns `(remaining clients, discarded clients)`.  The
function is total: a client's write failure never escapes `broadcast_frame`. -/
def broadcast_frame (k : Nat) (frame : List Nat) (clients : List Subscriber) :
    List Subscriber × List Subscriber :=
  let written := clients.map (fun s =>
    if s.failSet.contains k then s
    else { s with received := s.received ++ [frameData frame] })
  (written.filter (fun s => !(s.failSet.contains k)),
    written.filter (fun s => s.failSet.contains k))

/-- The capture loop broadcasting a sequence of frames one frame at a time,
frame indices starting at `k`; collects every discarded client. -/
def broadcastRun : Nat → List (List Nat) → List Subscriber →
    List Subscriber × List Subscriber
  | _, [], clients => (clients, [])
  | k, f :: fs, clients =>
    let p := broadcast_frame k f clients
    let q := broadcastRun (k + 1) fs p.1
    (q.1, p.2 ++ q.2)

theorem broadcast_frame_write_ok {k : Nat} (frame : List Nat)
    {clients : List Subscriber} {s : Subscriber} (hs : s ∈ clients)
    (hk : k ∉ s.failSet) :
    Subscriber.mk s.sid s.failSet (s.received ++ [frameData frame]) ∈
      (broadcast_frame k frame clients).1 := by
  apply List.mem_filter.mpr
  constructor
  · have hmem := List.mem_map_of_mem (fun s =>
      if s.failSet.contains k then s
      else { s with received := s.received ++ [frameData frame] }) hs
    simpa [hk] using hmem
  · simp [hk]

theorem broadcast_frame_write_fails {k : Nat} {frame : List Nat}
    {clients : List Subscriber} {s : Subscriber} (hs : s ∈ clients)
    (hk : k ∈ s.failSet) :
    s ∈ (broadcast_frame k frame clients).2 := by
  apply List.mem_filter.mpr
  constructor
  · have hmem := List.mem_map_of_mem (fun s =>
      if s.failSet.contains k then s
      else { s with received := s.received ++ [frameData frame] }) hs
    simpa [hk] using hmem
  · simp [hk]

theorem mem_alive_of_no_fail : ∀ (fs : List (List Nat)) (k : Nat)
    (clients : List Subscriber) (s : Subscriber), s ∈ clients →
    (∀ i, i < fs.length → (k + i) ∉ s.failSet) →
    Subscriber.mk s.sid s.failSet (s.received ++ fs.map frameData) ∈
      (broadcastRun k fs clients).1 := by
  intro fs
  induction fs with
  | nil =>
    intro k clients s hs _
    simpa using hs
  | cons f fs' ih =>
    intro k clients s hs hok
    have hk : k ∉ s.failSet := by
      have := hok 0 (Nat.succ_pos _)
      simpa using this
    have hs1 := broadcast_frame_write_ok f hs hk
    have hrec := ih (k + 1) (broadcast_frame k f clients).1
      (Subscriber.mk s.sid s.failSet (s.received ++ [frameData f])) hs1 ?_
    · show _ ∈ (broadcastRun (k + 1) fs' (broadcast_frame k f clients).1).1
      dsimp only at hrec
      rw [show s.received ++ List.map frameData (f :: fs') =
          (s.received ++ [frameData f]) ++ List.map frameData fs' from by
        rw [List.append_assoc]
        rfl]
      exact hrec
    · intro i hi
      show k + 1 + i ∉ _
      rw [show k + 1 + i = k + (i + 1) from by omega]
      exact hok (i + 1) (by simpa using Nat.succ_lt_succ hi)

theorem mem_dead_of_single_fail : ∀ (fs : List (List Nat)) (k : Nat)
    (clients : List Subscriber) (s : Subscriber) (i : Nat), s ∈ clients →
    k ≤ i → i < k + fs.length →
    (∀ j, k ≤ j → j < k + fs.length → (j ∈ s.failSet ↔ j = i)) →
    Subscriber.mk s.sid s.failSet
        (s.received ++ (fs.take (i - k)).map frameData) ∈
      (broadcastRun k fs clients).2 := by
  intro fs
  induction fs with
  | nil =>
    intro k clients s i _ hki hik _
    simp at hik
    omega
  | cons f fs' ih =>
    intro k clients s i hs hki hik hiff
    by_cases heq : i = k
    · subst heq
      have hk : i ∈ s.failSet :=
        (hiff i (Nat.le_refl i) (by omega)).mpr rfl
      show _ ∈ (broadcast_frame i f clients).2 ++
        (broadcastRun (i + 1) fs' (broadcast_frame i f clients).1).2
      simp only [Nat.sub_self, List.take_zero, List.map_nil, List.append_nil]
      exact List.mem_append_left _ (broadcast_frame_write_fails hs hk)
    · have hklt : k < i := by omega
      have hk : k ∉ s.failSet := by
        intro hmem
        exact heq ((hiff k (Nat.le_refl k) (by omega)).mp hmem).symm
      have hs1 := broadcast_frame_write_ok f hs hk
      have hrec := ih (k + 1) (broadcast_frame k f clients).1
        (Subscriber.mk s.sid s.failSet (s.received ++ [frameData f])) i hs1
        (by omega) (by simp at hik ⊢; omega) ?_
      · show _ ∈ (broadcast_frame k f clients).2 ++
          (broadcastRun (k + 1) fs' (broadcast_frame k f clients).1).2
        dsimp only at hrec
        rw [show i - k = (i - (k + 1)) + 1 from by omega, List.take_succ_cons,
          List.map_cons,
          show s.received ++ (frameData f ::
              List.map frameData (fs'.take (i - (k + 1)))) =
            (s.received ++ [frameData f]) ++
              List.map frameData (fs'.take (i - (k + 1))) from by
            rw [List.append_assoc]
            rfl]
        exact List.mem_append_right _ hrec
      · intro j hj1 hj2
        show j ∈ s.failSet ↔ j = i
        exact hiff j (by omega) (by simp at hj2 ⊢; omega)

/-- C3: a subscriber registered before the first broadcast whose writes all
succeed is still registered after the whole sequence, and its write log has
been extended by exactly the broadcast frames, wrapped, in broadcast order —
the identical extension every such subscriber receives, each frame exactly
once. -/
theorem c3_all_frames_in_order (frames : List (List Nat))
    (clients : List Subscriber) (s : Subscriber) (hs : s ∈ clients)
    (hok : ∀ i, i < frames.length → i ∉ s.failSet) :
    Subscriber.mk s.sid s.failSet (s.received ++ frames.map frameData) ∈
      (broadcastRun 0 frames clients).1 := by
  apply mem_alive_of_no_fail frames 0 clients s hs
  intro i hi
  simpa using hok i hi

/-- Witness for C3: two subscribers, one of which fails on frame 0; the
reliable subscriber ends up registered with both frames logged in order. -/
theorem c3_all_frames_in_order_witness :
    Subscriber.mk 1 [] [] ∈ [Subscriber.mk 1 [] [], Subscriber.mk 2 [0] []] ∧
    Subscriber.mk 1 []
        ([] ++ [[255, 216, 255, 217], [9]].map frameData) ∈
      (broadcastRun 0 [[255, 216, 255, 217], [9]]
        [Subscriber.mk 1 [] [], Subscriber.mk 2 [0] []]).1 :=
  ⟨by decide, c3_all_frames_in_order [[255, 216, 255, 217], [9]]
    [Subscriber.mk 1 [] [], Subscriber.mk 2 [0] []] (Subscriber.mk 1 [] [])
    (by decide) (by intro i hi; simp)⟩

/-- C4: when subscriber `s`'s write fails exactly on frame `i`, the failure
is caught inside `broadcast_frame`; after the iteration `s` is removed — it
ends among the discarded clients with its log extended by exactly the frames
before `i`, receiving neither frame `i` nor any later frame — while any
other subscriber whose writes succeed receives every frame, `i` through the
last included, uninterrupted.  `broadcast_frame` and `broadcastRun` are
total functions, so the write failure never escapes the broadcast. -/
theorem c4_failed_subscriber_isolated (frames : List (List Nat))
    (clients : List Subscriber) (s t : Subscriber) (i : Nat)
    (hs : s ∈ clients) (hi : i < frames.length)
    (hfail : ∀ j, j < frames.length → (j ∈ s.failSet ↔ j = i))
    (ht : t ∈ clients)
    (htok : ∀ j, j < frames.length → j ∉ t.failSet) :
    Subscriber.mk s.sid s.failSet
        (s.received ++ (frames.take i).map frameData) ∈
      (broadcastRun 0 frames clients).2 ∧
    Subscriber.mk t.sid t.failSet (t.received ++ frames.map frameData) ∈
      (broadcastRun 0 frames clients).1 := by
  constructor
  · have hdead := mem_dead_of_single_fail frames 0 clients s i hs (Nat.zero_le i)
      (by omega) (fun j _ hj2 => hfail j (by simpa using hj2))
    simpa using hdead
  · apply mem_alive_of_no_fail frames 0 clients t ht
    intro j hj
    simpa using htok j hj

/-- Witness for C4: subscriber 2 fails on frame index 1 of two frames; it is
discarded holding only frame 0, while subscriber 1 receives both frames. -/
theorem c4_failed_subscriber_isolated_witness :
    Subscriber.mk 2 [1] [] ∈ [Subscriber.mk 1 [] [], Subscriber.mk 2 [1] []] ∧
    Subscriber.mk 2 [1] ([] ++ ([[1], [2]].take 1).map frameData) ∈
      (broadcastRun 0 [[1], [2]]
        [Subscriber.mk 1 [] [], Subscriber.mk 2 [1] []]).2 ∧
    Subscriber.mk 1 [] ([] ++ [[1], [2]].map frameData) ∈
      (broadcastRun 0 [[1], [2]]
        [Subscriber.mk 1 [] [], Subscriber.mk 2 [1] []]).1 :=
  ⟨by decide,
    (c4_failed_subscriber_isolated [[1], [2]]
      [Subscriber.mk 1 [] [], Subscriber.mk 2 [1] []]
      (Subscriber.mk 2 [1] []) (Subscriber.mk 1 [] []) 1
      (by decide) (by decide) (by intro j hj; simp) (by decide)
      (by intro j hj; simp)).1,
    (c4_failed_subscriber_isolated [[1], [2]]
      [Subscriber.mk 1 [] [], Subscriber.mk 2 [1] []]
      (Subscriber.mk 2 [1] []) (Subscriber.mk 1 [] []) 1
      (by decide) (by decide) (by intro j hj; simp) (by decide)
      (by intro j hj; simp)).2⟩

/-- The multipart part exactly as claim C10 spells it: the ASCII bytes of
`--frame\r\nContent-Type: image/jpeg\r\n\r\n`, then the frame bytes, then
`\r\n`, and nothing else. -/
def claimFraming (frame : List Nat) : List Nat :=
  [45, 45, 102, 114, 97, 109, 101, 13, 10,
   67, 111, 110, 116, 101, 110, 116, 45, 84, 121, 112, 101, 58, 32,
   105, 109, 97, 103, 101, 47, 106, 112, 101, 103, 13, 10, 13, 10] ++
  frame ++ [13, 10]

/-- C10: for every frame, the byte sequence `broadcast_frame` writes to a
subscriber is exactly the claim's multipart part — `frameData` coincides
with `claimFraming` — and a successful write appends exactly that one entry
to the subscriber's log. -/
theorem c10_multipart_framing (frame : List Nat) (k : Nat)
    (clients : List Subscriber) (s : Subscriber)
    (hs : s ∈ clients) (hk : k ∉ s.failSet) :
    frameData frame = claimFraming frame ∧
    Subscriber.mk s.sid s.failSet (s.received ++ [frameData frame]) ∈
      (broadcast_frame k frame clients).1 := by
  constructor
  · unfold frameData claimFraming
    rw [show ("--frame\r\nContent-Type: image/jpeg\r\n\r\n".toList.map
        Char.toNat) =
      [45, 45, 102, 114, 97, 109, 101, 13, 10,
       67, 111, 110, 116, 101, 110, 116, 45, 84, 121, 112, 101, 58, 32,
       105, 109, 97, 103, 101, 47, 106, 112, 101, 103, 13, 10, 13, 10]
      from by decide,
      show ("\r\n".toList.map Char.toNat) = [13, 10] from by decide]
  · exact broadcast_frame_write_ok frame hs hk

/-- Witness for C10 at a concrete frame and subscriber. -/
theorem c10_multipart_framing_witness :
    frameData [255, 216, 255, 217] = claimFraming [255, 216, 255, 217] ∧
    Subscriber.mk 1 [] ([] ++ [frameData [255, 216, 255, 217]]) ∈
      (broadcast_frame 0 [255, 216, 255, 217] [Subscriber.mk 1 [] []]).1 :=
  c10_multipart_framing [255, 216, 255, 217] 0 [Subscriber.mk 1 [] []]
    (Subscriber.mk 1 [] []) (by decide) (by simp)

/-- Registration in the `self.clients` `WeakSet` (clients stand for their
handles): `add` inserts when absent. -/
def wsAdd (clients : List Nat) (x : Nat) : List Nat :=
  if x ∈ clients then clients else clients ++ [x]

/-- `WeakSet.discard`: remove the element if present, otherwise do nothing —
it raises nothing either way.  This is the removal used both by
`broadcast_frame` for dead clients and by the `finally` block of
`stream_handler`. -/
def wsDiscard (clients : List Nat) (x : Nat) : List Nat :=
  clients.erase x

/-- C9: discarding a client that is absent from the registry is a no-op
that leaves the registry unchanged (and, being a total function, it raises
no error); in particular, on a duplicate-free registry, the handler's
`finally` discard after the Broadcaster has already discarded the same
client changes nothing more — discarding twice equals discarding once. -/
theorem c9_discard_absent_noop (clients : List Nat) (x : Nat)
    (hnodup : clients.Nodup) :
    (x ∉ clients → wsDiscard clients x = clients) ∧
    wsDiscard (wsDiscard clients x) x = wsDiscard clients x := by
  constructor
  · intro h
    exact List.erase_of_not_mem h
  · exact List.erase_of_not_mem hnodup.not_mem_erase

/-- Witness for C9: discarding absent client 3, then discarding client 1
twice. -/
theorem c9_discard_absent_noop_witness :
    ([1, 2] : List Nat).Nodup ∧
    wsDiscard [1, 2] 3 = [1, 2] ∧
    wsDiscard (wsDiscard [1, 2] 1) 1 = wsDiscard [1, 2] 1 :=
  ⟨by decide, (c9_discard_absent_noop [1, 2] 3 (by decide)).1 (by decide),
    (c9_discard_absent_noop [1, 2] 1 (by decide)).2⟩
